import Mathlib

/-!
Shallow embedding of `hashedFC.py` (class `HashedFC`): the activation-metric
accumulation, representative selection and pruning logic of the hashed
fully-connected layer. Weight matrices, biases and activation counters are
modelled as lists of rationals in row-major order. The bucket contents,
produced by the external LSH index (`self.lsh.representatives()`, whose code
is outside this repository), are an explicit input parameter: each bucket is
the list of its flat member indices in iteration order.
-/

/-- Reading one cell of a row-major matrix, defaulting to 0 out of range. -/
def getCell (m : List (List ℚ)) (r c : ℕ) : ℚ := (m.getD r []).getD c 0

/-- Writing one cell of a row-major matrix (a no-op out of range, as `List.set`). -/
def updateCell (m : List (List ℚ)) (r c : ℕ) (v : ℚ) : List (List ℚ) :=
  m.set r ((m.getD r []).set c v)

/-- Row of a flat index as computed by the source: `idx // self.num_class`. -/
def rowOf (numClass f : ℕ) : ℕ := f / numClass

/-- Column of a flat index as computed by the source: `idx % self.D`. -/
def colOf (D f : ℕ) : ℕ := f % D

/-- Flat index rebuilt by the source at line 114:
`most_activated_row * self.num_class + most_activated_col`. -/
def flatIndexOf (numClass r c : ℕ) : ℕ := r * numClass + c

/-- Index of the first occurrence of the maximum of a list, the behaviour of
`torch.argmax` on a one-dimensional tensor (0 for the empty list). -/
def argmaxFirst : List ℚ → ℕ
  | [] => 0
  | [_] => 0
  | a :: b :: t =>
    if a < (b :: t).getD (argmaxFirst (b :: t)) 0 then argmaxFirst (b :: t) + 1 else 0

/-- Row indices of a bucket's members: `rows = bucket_tensor // self.num_class`. -/
def bucketRows (numClass : ℕ) (bucket : List ℕ) : List ℕ := bucket.map (rowOf numClass)

/-- Column indices of a bucket's members: `cols = bucket_tensor % self.D`. -/
def bucketCols (D : ℕ) (bucket : List ℕ) : List ℕ := bucket.map (colOf D)

/-- The activation counts gathered for a bucket:
`self.running_activations[rows, cols]`. -/
def bucketActsOf (numClass D : ℕ) (acts : List (List ℚ)) (bucket : List ℕ) : List ℚ :=
  List.zipWith (fun r c => getCell acts r c) (bucketRows numClass bucket) (bucketCols D bucket)

/-- The weights gathered for a bucket: `self.params.weight[rows, cols]`. -/
def bucketWeightsOf (numClass D : ℕ) (W : List (List ℚ)) (bucket : List ℕ) : List ℚ :=
  List.zipWith (fun r c => getCell W r c) (bucketRows numClass bucket) (bucketCols D bucket)

/-- The representative weight of a multi-member bucket: the weighted sum
`(bucket_weights * bucket_activations).sum()` divided by the activation sum,
with the fallback 0 when the activation sum is 0. -/
def repWeightOf (numClass D : ℕ) (W acts : List (List ℚ)) (bucket : List ℕ) : ℚ :=
  let weightedSum := (List.zipWith (fun w a => w * a)
    (bucketWeightsOf numClass D W bucket) (bucketActsOf numClass D acts bucket)).sum
  let activationSum := (bucketActsOf numClass D acts bucket).sum
  if activationSum = 0 then 0 else weightedSum / activationSum

/-- The (row, column) position written for a multi-member bucket:
`rows[argmax_idx], cols[argmax_idx]` for `argmax_idx = bucket_activations.argmax()`. -/
def multiRepPos (numClass D : ℕ) (acts : List (List ℚ)) (bucket : List ℕ) : ℕ × ℕ :=
  let j := argmaxFirst (bucketActsOf numClass D acts bucket)
  ((bucketRows numClass bucket).getD j 0, (bucketCols D bucket).getD j 0)

/-- The representative index stored for one bucket: -1 for an empty bucket,
the sole member's flat index for a singleton bucket, and
`most_activated_row * self.num_class + most_activated_col` for a
multi-member bucket. -/
def bucketRep (numClass D : ℕ) (acts : List (List ℚ)) (bucket : List ℕ) : Int :=
  match bucket with
  | [] => -1
  | [idx] => Int.ofNat idx
  | _ => Int.ofNat
      (flatIndexOf numClass (multiRepPos numClass D acts bucket).1
        (multiRepPos numClass D acts bucket).2)

/-- The update of `new_weights` performed for one bucket of the loop body of
`select_representatives`: nothing for an empty bucket, a rewrite of the cell
with its own current value for a singleton bucket (lines 82-84), and the
write of the representative weight at the most activated position for a
multi-member bucket (line 111). Reads always come from `self.params.weight`
(the matrix `W`), which the loop does not modify. -/
def selWeightStep (numClass D : ℕ) (W acts : List (List ℚ)) (nw : List (List ℚ))
    (bucket : List ℕ) : List (List ℚ) :=
  match bucket with
  | [] => nw
  | [idx] =>
      updateCell nw (rowOf numClass idx) (colOf D idx)
        (getCell W (rowOf numClass idx) (colOf D idx))
  | _ =>
      updateCell nw (multiRepPos numClass D acts bucket).1
        (multiRepPos numClass D acts bucket).2 (repWeightOf numClass D W acts bucket)

/-- One iteration of the bucket loop of `select_representatives`: it updates
the cloned weight matrix and appends the bucket's representative index. -/
def selStep (numClass D : ℕ) (W acts : List (List ℚ))
    (s : List (List ℚ) × List Int) (bucket : List ℕ) : List (List ℚ) × List Int :=
  (selWeightStep numClass D W acts s.1 bucket,
   s.2 ++ [bucketRep numClass D acts bucket])

/-- Embedding of `HashedFC.select_representatives`, given the bucket enumeration from the
external LSH index: it folds the bucket loop over the clone of the weight
matrix and returns the new weight matrix together with the ordered list of
representative indices. -/
def select_representatives (numClass D : ℕ) (W acts : List (List ℚ))
    (buckets : List (List ℕ)) : List (List ℚ) × List Int :=
  buckets.foldl (selStep numClass D W acts) (W, [])

/-- PyTorch advanced-indexing semantics for one index into a length-`n`
dimension: a negative index counts from the end. -/
def torchIndex (n : ℕ) (i : Int) : ℕ := if i < 0 then ((n : Int) + i).toNat else i.toNat

/-- The sliced weights of `prune_weights` (line 127):
`self.params.weight[keep_indices, :input_dim]`. -/
def pruned_weights (W : List (List ℚ)) (reps : List Int) (input_dim : ℕ) :
    List (List ℚ) :=
  reps.map (fun i => (W.getD (torchIndex W.length i) []).take input_dim)

/-- The sliced biases of `prune_weights` (line 128): `self.params.bias[keep_indices]`. -/
def pruned_biases (b : List ℚ) (reps : List Int) : List ℚ :=
  reps.map (fun i => b.getD (torchIndex b.length i) 0)

/-- Materialisation of an `r × c` storage from a source matrix, reading cell
`(i, j)` of the source: used both for `copy_` into a fresh `nn.Linear` and for
the fresh uniform draws of `uniform_`. -/
def reshape (r c : ℕ) (src : List (List ℚ)) : List (List ℚ) :=
  (List.range r).map (fun i => (List.range c).map (fun j => getCell src i j))

/-- Embedding of `HashedFC.init_weights` applied to a weight/bias pair: `uniform_` replaces
every weight cell with a fresh random draw (modelled by the explicit source
matrix `rand`) and `fill_(0)` zeroes the bias, both preserving shape. -/
def init_weights (rand : List (List ℚ)) (weight : List (List ℚ)) (bias : List ℚ) :
    List (List ℚ) × List ℚ :=
  (weight.mapIdx (fun i row => row.mapIdx (fun j _ => getCell rand i j)),
   bias.map (fun _ => (0 : ℚ)))

/-- The state of a `HashedFC` module relevant to the claims: the current
`params.weight`, `params.bias`, `num_class`, `D` and `running_activations`. -/
structure HashedFC where
  weight : List (List ℚ)
  bias : List ℚ
  num_class : ℕ
  D : ℕ
  running_activations : List (List ℚ)

/-- Embedding of `HashedFC.prune_weights`: slice the kept rows, allocate a fresh
`nn.Linear(input_dim, len(representatives))`, copy the pruned values into it,
then call `init_weights` on the new layer (line 147), and install it. The
random draws of `uniform_` are the explicit parameter `rand`.
`running_activations` is not touched by the source. -/
def prune_weights (m : HashedFC) (reps : List Int) (input_dim : ℕ)
    (rand : List (List ℚ)) : HashedFC :=
  let pw := pruned_weights m.weight reps input_dim
  let pb := pruned_biases m.bias reps
  let nc := reps.length
  let copiedWeight := reshape nc input_dim pw
  let copiedBias := (List.range nc).map (fun i => pb.getD i 0)
  let inited := init_weights rand copiedWeight copiedBias
  { weight := inited.1
    bias := inited.2
    num_class := nc
    D := input_dim
    running_activations := m.running_activations }

/-- The per-column batch count of `accumulate_metrics`: entry `c` of
`torch.sum((activations > 0).float(), dim=0)`, the number of batch rows whose
activation at unit `c` is positive. -/
def colCounts (batch : List (List ℚ)) (c : ℕ) : ℚ :=
  (batch.map (fun row => if 0 < row.getD c 0 then (1 : ℚ) else 0)).sum

/-- The broadcast row update of `accumulate_metrics`: each entry of a counter
row is incremented by its column's batch count. -/
def accRow (batch : List (List ℚ)) (row : List ℚ) : List ℚ :=
  row.mapIdx (fun c v => v + colCounts batch c)

/-- Embedding of `HashedFC.accumulate_metrics`:
`self.running_activations += activation_summed.unsqueeze(0)` adds the same
per-column counts to every row of the counter storage. -/
def accumulate_metrics (ra : List (List ℚ)) (batch : List (List ℚ)) :
    List (List ℚ) :=
  ra.map (accRow batch)

/-- The counter storage allocated in `HashedFC.__init__` (line 23):
`torch.zeros(input_dim, output_dim)`. -/
def init_running (input_dim output_dim : ℕ) : List (List ℚ) :=
  List.replicate input_dim (List.replicate output_dim 0)

/-- The counter state reached from initialisation by a sequence of
`accumulate_metrics` calls, one per batch. -/
def run_accumulate (input_dim output_dim : ℕ) (batches : List (List (List ℚ))) :
    List (List ℚ) :=
  batches.foldl accumulate_metrics (init_running input_dim output_dim)

theorem getD_set_self {α : Type} (l : List α) (i : ℕ) (a d : α) (h : i < l.length) :
    (l.set i a).getD i d = a := by
  rw [List.getD_eq_getElem?_getD, List.getElem?_set_self h]
  rfl

theorem getD_set_ne {α : Type} (l : List α) {i j : ℕ} (a d : α) (h : i ≠ j) :
    (l.set i a).getD j d = l.getD j d := by
  rw [List.getD_eq_getElem?_getD, List.getElem?_set_ne h, ← List.getD_eq_getElem?_getD]

theorem updateCell_length (m : List (List ℚ)) (r c : ℕ) (v : ℚ) :
    (updateCell m r c v).length = m.length :=
  List.length_set m r _

theorem getCell_updateCell_ne (m : List (List ℚ)) {r c i j : ℕ} (v : ℚ)
    (h : (r, c) ≠ (i, j)) :
    getCell (updateCell m r c v) i j = getCell m i j := by
  unfold getCell updateCell
  by_cases hri : r = i
  · subst hri
    have hcj : c ≠ j := by
      intro hcj
      exact h (by rw [hcj])
    by_cases hr : r < m.length
    · rw [getD_set_self _ _ _ _ hr, getD_set_ne _ _ _ hcj]
    · rw [List.set_eq_of_length_le (le_of_not_lt hr)]
  · rw [getD_set_ne _ _ _ hri]

theorem getCell_updateCell_self (m : List (List ℚ)) {r c : ℕ} (v : ℚ)
    (hr : r < m.length) (hc : c < (m.getD r []).length) :
    getCell (updateCell m r c v) r c = v := by
  unfold getCell updateCell
  rw [getD_set_self _ _ _ _ hr, getD_set_self _ _ _ _ hc]

theorem getCell_updateCell_self_or (m : List (List ℚ)) (r c : ℕ) (v : ℚ) :
    getCell (updateCell m r c v) r c = v ∨ getCell (updateCell m r c v) r c = getCell m r c := by
  by_cases hr : r < m.length
  · by_cases hc : c < (m.getD r []).length
    · exact Or.inl (getCell_updateCell_self m v hr hc)
    · right
      unfold getCell updateCell
      rw [getD_set_self _ _ _ _ hr,
        List.getD_eq_default _ _ (by simpa using le_of_not_lt hc),
        List.getD_eq_default _ _ (le_of_not_lt hc)]
  · right
    unfold getCell updateCell
    rw [List.set_eq_of_length_le (le_of_not_lt hr)]

theorem updateCell_rowlen (m : List (List ℚ)) (r c : ℕ) (v : ℚ) (i : ℕ) :
    ((updateCell m r c v).getD i []).length = ((m.getD i []).length) := by
  unfold updateCell
  by_cases hri : r = i
  · subst hri
    by_cases hr : r < m.length
    · rw [getD_set_self _ _ _ _ hr, List.length_set]
    · rw [List.set_eq_of_length_le (le_of_not_lt hr)]
  · rw [getD_set_ne _ _ _ hri]

theorem selWeightStep_length (numClass D : ℕ) (W acts nw : List (List ℚ))
    (b : List ℕ) :
    (selWeightStep numClass D W acts nw b).length = nw.length := by
  cases b with
  | nil => rfl
  | cons x t =>
    cases t with
    | nil => simp [selWeightStep, updateCell_length]
    | cons y t2 => simp [selWeightStep, updateCell_length]

theorem selWeightStep_rowlen (numClass D : ℕ) (W acts nw : List (List ℚ))
    (b : List ℕ) (i : ℕ) :
    ((selWeightStep numClass D W acts nw b).getD i []).length = ((nw.getD i []).length) := by
  cases b with
  | nil => rfl
  | cons x t =>
    cases t with
    | nil => exact updateCell_rowlen _ _ _ _ _
    | cons y t2 => exact updateCell_rowlen _ _ _ _ _

theorem foldl_selW_length (numClass D : ℕ) (W acts : List (List ℚ))
    (bs : List (List ℕ)) :
    ∀ nw, (bs.foldl (selWeightStep numClass D W acts) nw).length = nw.length := by
  induction bs with
  | nil => intro nw; rfl
  | cons b bs ih =>
    intro nw
    rw [List.foldl_cons, ih, selWeightStep_length]

theorem foldl_selW_rowlen (numClass D : ℕ) (W acts : List (List ℚ))
    (bs : List (List ℕ)) :
    ∀ nw i, ((bs.foldl (selWeightStep numClass D W acts) nw).getD i []).length
      = ((nw.getD i []).length) := by
  induction bs with
  | nil => intro nw i; rfl
  | cons b bs ih =>
    intro nw i
    rw [List.foldl_cons, ih, selWeightStep_rowlen]

theorem select_reps_eq (numClass D : ℕ) (W acts : List (List ℚ))
    (buckets : List (List ℕ)) :
    select_representatives numClass D W acts buckets
      = (buckets.foldl (selWeightStep numClass D W acts) W,
         buckets.map (bucketRep numClass D acts)) := by
  unfold select_representatives
  suffices h : ∀ w0 r0, buckets.foldl (selStep numClass D W acts) (w0, r0)
      = (buckets.foldl (selWeightStep numClass D W acts) w0,
         r0 ++ buckets.map (bucketRep numClass D acts)) by
    simpa using h W []
  induction buckets with
  | nil => intro w0 r0; simp
  | cons b bs ih =>
    intro w0 r0
    rw [List.foldl_cons, List.foldl_cons]
    show bs.foldl (selStep numClass D W acts)
        (selWeightStep numClass D W acts w0 b, r0 ++ [bucketRep numClass D acts b]) = _
    rw [ih]
    simp

/-- C5: the claim that flat-to-(row, column) conversion and back uses one
consistent divisor fails on the code: the source divides by `num_class` and
takes the remainder by `D`. At flat index 3 with `num_class = 4` and `D = 2`
the round trip gives `(3 / 4) * 4 + 3 % 2 = 1`, not 3. -/
theorem flat_index_two_divisors :
    flatIndexOf 4 (rowOf 4 3) (colOf 2 3) = 1 ∧ (1 : ℕ) ≠ 3 := by decide

/-- C4: the representative index returned for a multi-member bucket is not the
flat index of the most activated member. With `num_class = 4`, `D = 2`,
bucket `[2, 3]` and activations making member 3 the unique argmax (count 5
against 1), the code stores `(3 / 4) * 4 + 3 % 2 = 1`, which is not member 3's
flat index and is not even a member of the bucket. -/
theorem rep_index_not_member :
    (select_representatives 4 2 [[1, 1]] [[1, 5]] [[2, 3]]).2 = [(1 : Int)]
    ∧ getCell [[1, 5]] (rowOf 4 3) (colOf 2 3) = 5
    ∧ getCell [[1, 5]] (rowOf 4 2) (colOf 2 2) = 1
    ∧ (1 : Int) ∉ [2, 3].map Int.ofNat := by decide

/-- C1: `prune_weights` does not filter sentinel entries before slicing. With
representatives `[-1, 0]` over a 2-row weight matrix, the sliced output keeps
both entries (2 rows, not the 1 non-sentinel row) and its first row is the
last row of the weight matrix, selected by the sentinel through negative
indexing. -/
theorem prune_no_sentinel_filter :
    pruned_weights [[1, 2], [3, 4]] [-1, 0] 2 = [[3, 4], [1, 2]]
    ∧ (pruned_weights [[1, 2], [3, 4]] [-1, 0] 2).length = 2
    ∧ (([-1, 0] : List Int).filter (fun i => i != -1)).length = 1
    ∧ (pruned_weights [[1, 2], [3, 4]] [-1, 0] 2).getD 0 []
        = ([[1, 2], [3, 4]] : List (List ℚ)).getD 1 [] := by decide

/-- C2: the copied pruned values are re-initialised. With bias `[1, 2]` and
representatives `[0, 1]`, the sliced biases are `[1, 2]`, but the layer
installed by `prune_weights` has bias `[0, 0]` because `init_weights` is
called on the new layer after the copy (line 147). -/
theorem prune_reinitializes_copies :
    pruned_biases (HashedFC.mk [[1, 2], [3, 4]] [1, 2] 2 2 [[7, 7], [7, 7]]).bias [0, 1]
      = [1, 2]
    ∧ (prune_weights (HashedFC.mk [[1, 2], [3, 4]] [1, 2] 2 2 [[7, 7], [7, 7]])
        [0, 1] 2 [[9, 9], [9, 9]]).bias = [0, 0]
    ∧ ([0, 0] : List ℚ) ≠ [1, 2] := by decide

/-- C8 counterexample: the activation-counter storage keeps its pre-prune
dimensions. Pruning a 2-row module down to 1 representative leaves
`running_activations` exactly as before (2 rows), while the new weight matrix
has 1 row. -/
theorem prune_counter_kept_counterexample :
    (prune_weights (HashedFC.mk [[1, 2], [3, 4]] [1, 2] 2 2 [[7, 7], [7, 7]])
        [0] 2 [[9, 9], [9, 9]]).running_activations = [[7, 7], [7, 7]]
    ∧ (prune_weights (HashedFC.mk [[1, 2], [3, 4]] [1, 2] 2 2 [[7, 7], [7, 7]])
        [0] 2 [[9, 9], [9, 9]]).running_activations.length = 2
    ∧ (prune_weights (HashedFC.mk [[1, 2], [3, 4]] [1, 2] 2 2 [[7, 7], [7, 7]])
        [0] 2 [[9, 9], [9, 9]]).weight.length = 1
    ∧ (2 : ℕ) ≠ 1 := by decide

theorem foldl_selW_frame (numClass D : ℕ) (W acts : List (List ℚ)) (r c : ℕ)
    (bs : List (List ℕ))
    (hb : ∀ b ∈ bs, 2 ≤ b.length → (r, c) ≠ multiRepPos numClass D acts b) :
    ∀ nw, getCell nw r c = getCell W r c →
      getCell (bs.foldl (selWeightStep numClass D W acts) nw) r c = getCell W r c := by
  induction bs with
  | nil => intro nw h; exact h
  | cons b bs ih =>
    intro nw h
    rw [List.foldl_cons]
    apply ih (fun b' hb' => hb b' (List.mem_cons_of_mem _ hb'))
    cases b with
    | nil => exact h
    | cons x t =>
      cases t with
      | nil =>
        show getCell (updateCell nw (rowOf numClass x) (colOf D x)
          (getCell W (rowOf numClass x) (colOf D x))) r c = getCell W r c
        by_cases hpos : (rowOf numClass x, colOf D x) = (r, c)
        · obtain ⟨h1, h2⟩ := Prod.mk.injEq .. ▸ hpos
          subst h1
          subst h2
          rcases getCell_updateCell_self_or nw (rowOf numClass x) (colOf D x)
              (getCell W (rowOf numClass x) (colOf D x)) with h' | h'
          · exact h'
          · rw [h']
            exact h
        · rw [getCell_updateCell_ne _ _ hpos]
          exact h
      | cons y t2 =>
        have hne : (r, c) ≠ multiRepPos numClass D acts (x :: y :: t2) :=
          hb _ (List.mem_cons_self _ _) (by simp)
        show getCell (updateCell nw (multiRepPos numClass D acts (x :: y :: t2)).1
          (multiRepPos numClass D acts (x :: y :: t2)).2
          (repWeightOf numClass D W acts (x :: y :: t2))) r c = getCell W r c
        rw [getCell_updateCell_ne]
        · exact h
        · intro hcon
          exact hne (by rw [← hcon])

/-- C6: `select_representatives` changes weight values only, never the shape of
the weight matrix, and leaves every cell other than the representative
positions of multi-member buckets unchanged; in particular empty buckets and
singleton buckets cause no weight-value change. -/
theorem select_representatives_frame (numClass D : ℕ) (W acts : List (List ℚ))
    (buckets : List (List ℕ)) (r c : ℕ)
    (hb : ∀ b ∈ buckets, 2 ≤ b.length → (r, c) ≠ multiRepPos numClass D acts b) :
    getCell (select_representatives numClass D W acts buckets).1 r c = getCell W r c
    ∧ (select_representatives numClass D W acts buckets).1.length = W.length
    ∧ ∀ i, (((select_representatives numClass D W acts buckets).1.getD i []).length)
        = ((W.getD i []).length) := by
  rw [select_reps_eq]
  exact ⟨foldl_selW_frame numClass D W acts r c buckets hb W rfl,
    foldl_selW_length numClass D W acts buckets W,
    fun i => foldl_selW_rowlen numClass D W acts buckets W i⟩

/-- C6 witness: with two rows, an empty bucket, a singleton bucket and a
multi-member bucket whose representative position is (0, 1), cell (1, 1) is
unchanged and the shape is preserved. -/
theorem select_representatives_frame_witness :
    getCell (select_representatives 2 2 [[3, 4], [5, 6]] [[1, 1], [1, 1]]
        [[], [0], [1, 2]]).1 1 1 = getCell [[3, 4], [5, 6]] 1 1
    ∧ (select_representatives 2 2 [[3, 4], [5, 6]] [[1, 1], [1, 1]]
        [[], [0], [1, 2]]).1.length = ([[3, 4], [5, 6]] : List (List ℚ)).length := by
  have h := select_representatives_frame 2 2 [[3, 4], [5, 6]] [[1, 1], [1, 1]]
    [[], [0], [1, 2]] 1 1 (by decide)
  exact ⟨h.1, h.2.1⟩

/-- C7: the sequence returned by `select_representatives` has one entry per
bucket in enumeration order: entry `i` is exactly the representative of bucket
`i`, an empty bucket contributes the sentinel -1 and a singleton bucket
contributes its sole member's flat index. -/
theorem representatives_order (numClass D : ℕ) (W acts : List (List ℚ))
    (buckets : List (List ℕ)) :
    (select_representatives numClass D W acts buckets).2.length = buckets.length
    ∧ (∀ i, i < buckets.length →
        (select_representatives numClass D W acts buckets).2.getD i 0
          = bucketRep numClass D acts (buckets.getD i []))
    ∧ (∀ i, i < buckets.length → buckets.getD i [] = [] →
        (select_representatives numClass D W acts buckets).2.getD i 0 = -1)
    ∧ (∀ i x, i < buckets.length → buckets.getD i [] = [x] →
        (select_representatives numClass D W acts buckets).2.getD i 0 = Int.ofNat x) := by
  rw [select_reps_eq]
  have key : ∀ i, i < buckets.length →
      (buckets.map (bucketRep numClass D acts)).getD i 0
        = bucketRep numClass D acts (buckets.getD i []) := by
    intro i h
    rw [List.getD_eq_getElem _ _ (by simpa using h), List.getElem_map,
      List.getD_eq_getElem _ _ h]
  refine ⟨by simp, key, ?_, ?_⟩
  · intro i h hempty
    rw [key i h, hempty]
    rfl
  · intro i x h hsingle
    rw [key i h, hsingle]
    rfl

/-- C7 witness: with buckets `[[], [7]]` the returned sequence is `[-1, 7]`:
length 2, sentinel for the empty bucket, and the sole member's flat index 7
for the singleton bucket. -/
theorem representatives_order_witness :
    (select_representatives 3 2 [[0, 0]] [[0, 0]] [[], [7]]).2.length = 2
    ∧ (select_representatives 3 2 [[0, 0]] [[0, 0]] [[], [7]]).2.getD 0 0 = -1
    ∧ (select_representatives 3 2 [[0, 0]] [[0, 0]] [[], [7]]).2.getD 1 0 = Int.ofNat 7 := by
  have h := representatives_order 3 2 [[0, 0]] [[0, 0]] [[], [7]]
  exact ⟨h.1, h.2.2.1 0 (by decide) rfl, h.2.2.2 1 7 (by decide) rfl⟩

theorem zipWith_mul_comm (l1 l2 : List ℚ) :
    List.zipWith (fun w a => w * a) l1 l2 = List.zipWith (fun a w => a * w) l2 l1 := by
  induction l1 generalizing l2 with
  | nil => cases l2 <;> rfl
  | cons x t ih =>
    cases l2 with
    | nil => rfl
    | cons y s =>
      show x * y :: _ = y * x :: _
      rw [mul_comm, ih]

/-- C3: for a multi-member bucket processed by `select_representatives`, the
value installed at the bucket's representative position is the
activation-weighted mean of the bucket's weights, `(Σ aᵢ·wᵢ) / (Σ aᵢ)`, and
the defined fallback 0 when the activation sum `Σ aᵢ` is 0 — evaluated there,
not an error, so the pass completes. -/
theorem rep_weight_weighted_mean (numClass D : ℕ) (W acts : List (List ℚ))
    (bs : List (List ℕ)) (bucket : List ℕ) (h2 : 2 ≤ bucket.length)
    (hr : (multiRepPos numClass D acts bucket).1 < W.length)
    (hc : (multiRepPos numClass D acts bucket).2
        < ((W.getD (multiRepPos numClass D acts bucket).1 []).length)) :
    getCell (select_representatives numClass D W acts (bs ++ [bucket])).1
        (multiRepPos numClass D acts bucket).1 (multiRepPos numClass D acts bucket).2
      = if (bucketActsOf numClass D acts bucket).sum = 0 then 0
        else (List.zipWith (fun a w => a * w) (bucketActsOf numClass D acts bucket)
            (bucketWeightsOf numClass D W bucket)).sum
          / (bucketActsOf numClass D acts bucket).sum := by
  rw [select_reps_eq]
  show getCell ((bs ++ [bucket]).foldl (selWeightStep numClass D W acts) W) _ _ = _
  rw [List.foldl_append, List.foldl_cons, List.foldl_nil]
  obtain ⟨x, t, rfl⟩ : ∃ x t, bucket = x :: t := by
    cases bucket with
    | nil => simp at h2
    | cons x t => exact ⟨x, t, rfl⟩
  obtain ⟨y, t2, rfl⟩ : ∃ y t2, t = y :: t2 := by
    cases t with
    | nil => simp at h2
    | cons y t2 => exact ⟨y, t2, rfl⟩
  show getCell (updateCell (bs.foldl (selWeightStep numClass D W acts) W)
      (multiRepPos numClass D acts (x :: y :: t2)).1
      (multiRepPos numClass D acts (x :: y :: t2)).2
      (repWeightOf numClass D W acts (x :: y :: t2))) _ _ = _
  rw [getCell_updateCell_self]
  · rw [repWeightOf, zipWith_mul_comm]
  · rw [foldl_selW_length]
    exact hr
  · rw [foldl_selW_rowlen]
    exact hc

/-- C3 witness: the synthetic bucket with activation counts (2, 6) and weights
(1, 3) yields representative weight (2·1 + 6·3) / 8 = 5/2 at its
representative position (0, 1). -/
theorem rep_weight_weighted_mean_witness :
    2 ≤ ([0, 1] : List ℕ).length
    ∧ getCell (select_representatives 2 2 [[1, 3]] [[2, 6]] [[0, 1]]).1 0 1 = 5 / 2 := by
  have h := rep_weight_weighted_mean 2 2 [[1, 3]] [[2, 6]] [] [0, 1]
    (by decide) (by decide) (by decide)
  have hpos : multiRepPos 2 2 [[2, 6]] [0, 1] = (0, 1) := by decide
  rw [hpos] at h
  refine ⟨by decide, ?_⟩
  rw [show (([] : List (List ℕ)) ++ [[0, 1]]) = [[0, 1]] from rfl] at h
  rw [h]
  norm_num [bucketActsOf, bucketWeightsOf, bucketRows, bucketCols, rowOf, colOf, getCell]

/-- C9: a sentinel -1 in the representative sequence is neither rejected nor
dropped by the slicing step of `prune_weights`: negative indexing resolves it
to the last row, so the sliced weights and biases keep one entry per
representative and carry the last row (restricted to `input_dim` columns) and
the last bias at the sentinel's position. -/
theorem sentinel_selects_last_row (W : List (List ℚ)) (b : List ℚ)
    (reps : List Int) (input_dim i : ℕ) (hW : 0 < W.length) (hb : 0 < b.length)
    (hi : i < reps.length) (hrep : reps.getD i 0 = -1) :
    (pruned_weights W reps input_dim).length = reps.length
    ∧ (pruned_biases b reps).length = reps.length
    ∧ (pruned_weights W reps input_dim).getD i []
        = (W.getD (W.length - 1) []).take input_dim
    ∧ (pruned_biases b reps).getD i 0 = b.getD (b.length - 1) 0 := by
  have hrep' : reps[i] = -1 := by
    rw [← List.getD_eq_getElem reps 0 hi]
    exact hrep
  have htor : ∀ n : ℕ, 0 < n → torchIndex n (-1) = n - 1 := by
    intro n hn
    simp only [torchIndex, if_pos (by norm_num : (-1 : Int) < 0)]
    omega
  refine ⟨by simp [pruned_weights], by simp [pruned_biases], ?_, ?_⟩
  · rw [pruned_weights, List.getD_eq_getElem _ _ (by simpa using hi),
      List.getElem_map, hrep', htor W.length hW]
  · rw [pruned_biases, List.getD_eq_getElem _ _ (by simpa using hi),
      List.getElem_map, hrep', htor b.length hb]

/-- C9 witness: with a 2-row weight matrix, biases `[5, 6]` and representative
sequence `[-1, 0]`, position 0 of the sliced output holds the last weight row
`[3, 4]` and the last bias 6. -/
theorem sentinel_selects_last_row_witness :
    (pruned_weights [[1, 2], [3, 4]] [-1, 0] 2).length = 2
    ∧ (pruned_biases [5, 6] [-1, 0]).length = 2
    ∧ (pruned_weights [[1, 2], [3, 4]] [-1, 0] 2).getD 0 []
        = (([[1, 2], [3, 4]] : List (List ℚ)).getD 1 []).take 2
    ∧ (pruned_biases [5, 6] [-1, 0]).getD 0 0 = ([5, 6] : List ℚ).getD 1 0 := by
  have h := sentinel_selects_last_row [[1, 2], [3, 4]] [5, 6] [-1, 0] 2 0
    (by decide) (by decide) (by decide) (by decide)
  exact h

/-- C8 amended: `prune_weights` replaces the weight matrix and bias with
versions whose row count equals the number of representatives passed in (a
shrink whenever that count is below the previous row count), and updates
`num_class` and `D` accordingly; the activation-counter storage is NOT
replaced — `running_activations` is returned unchanged with its pre-prune
dimensions. -/
theorem prune_shrinks_weights_keeps_counter (m : HashedFC) (reps : List Int)
    (input_dim : ℕ) (rand : List (List ℚ)) :
    (prune_weights m reps input_dim rand).running_activations = m.running_activations
    ∧ (prune_weights m reps input_dim rand).weight.length = reps.length
    ∧ (prune_weights m reps input_dim rand).bias.length = reps.length
    ∧ (prune_weights m reps input_dim rand).num_class = reps.length
    ∧ (prune_weights m reps input_dim rand).D = input_dim := by
  refine ⟨rfl, ?_, ?_, rfl, rfl⟩
  · show ((reshape reps.length input_dim
      (pruned_weights m.weight reps input_dim)).mapIdx _).length = reps.length
    rw [List.length_mapIdx, reshape, List.length_map, List.length_range]
  · show (((List.range reps.length).map _).map _).length = reps.length
    rw [List.length_map, List.length_map, List.length_range]

theorem accumulate_replicate (n : ℕ) (row : List ℚ) (batch : List (List ℚ)) :
    accumulate_metrics (List.replicate n row) batch
      = List.replicate n (accRow batch row) := by
  rw [accumulate_metrics, List.map_replicate]

theorem run_accumulate_closed (din dout : ℕ) (batches : List (List (List ℚ))) :
    run_accumulate din dout batches
      = List.replicate din
          (batches.foldl (fun row b => accRow b row) (List.replicate dout 0)) := by
  rw [run_accumulate, init_running]
  suffices h : ∀ row0 : List ℚ, batches.foldl accumulate_metrics (List.replicate din row0)
      = List.replicate din (batches.foldl (fun row b => accRow b row) row0) from h _
  induction batches with
  | nil => intro row0; rfl
  | cons b bs ih =>
    intro row0
    rw [List.foldl_cons, List.foldl_cons, accumulate_replicate, ih]

theorem accRow_length (batch : List (List ℚ)) (row : List ℚ) :
    (accRow batch row).length = row.length := by
  rw [accRow, List.length_mapIdx]

theorem foldl_accRow_length (batches : List (List (List ℚ))) :
    ∀ row0 : List ℚ,
      (batches.foldl (fun row b => accRow b row) row0).length = row0.length := by
  induction batches with
  | nil => intro row0; rfl
  | cons b bs ih =>
    intro row0
    rw [List.foldl_cons, ih, accRow_length]

theorem accRow_getD (batch : List (List ℚ)) (row : List ℚ) {c : ℕ}
    (h : c < row.length) :
    (accRow batch row).getD c 0 = row.getD c 0 + colCounts batch c := by
  rw [List.getD_eq_getElem _ _ (by simpa [accRow_length] using h)]
  simp only [accRow]
  rw [List.getElem_mapIdx, List.getD_eq_getElem _ _ h]

theorem colCounts_nonneg (batch : List (List ℚ)) (c : ℕ) :
    0 ≤ colCounts batch c := by
  apply List.sum_nonneg
  intro x hx
  rcases List.mem_map.1 hx with ⟨row, _, rfl⟩
  split <;> norm_num

theorem getD_replicate_zero (n i : ℕ) :
    (List.replicate n (0 : ℚ)).getD i 0 = 0 := by
  by_cases h : i < n
  · rw [List.getD_eq_getElem _ _ (by simpa using h), List.getElem_replicate]
  · rw [List.getD_eq_default _ _ (by simpa using le_of_not_lt h)]

theorem foldl_accRow_nonneg (batches : List (List (List ℚ))) :
    ∀ row0 : List ℚ, (∀ c, 0 ≤ row0.getD c 0) →
      ∀ c, 0 ≤ (batches.foldl (fun row b => accRow b row) row0).getD c 0 := by
  induction batches with
  | nil => intro row0 h c; exact h c
  | cons b bs ih =>
    intro row0 h c
    rw [List.foldl_cons]
    apply ih
    intro c'
    by_cases hc : c' < row0.length
    · rw [accRow_getD b row0 hc]
      exact add_nonneg (h c') (colCounts_nonneg b c')
    · rw [List.getD_eq_default _ _ (by simpa [accRow_length] using le_of_not_lt hc)]

/-- C10: every counter state reachable from initialisation by a sequence of
`accumulate_metrics` calls has all entries of one column equal (the per-unit
batch counts are broadcast identically over the whole first dimension), every
entry is non-negative, and entries never decrease when a further batch is
accumulated. -/
theorem running_activations_invariant (din dout : ℕ)
    (batches : List (List (List ℚ))) (r r' c : ℕ)
    (hr : r < din) (hr' : r' < din) (hc : c < dout) :
    getCell (run_accumulate din dout batches) r c
      = getCell (run_accumulate din dout batches) r' c
    ∧ 0 ≤ getCell (run_accumulate din dout batches) r c
    ∧ ∀ b, getCell (run_accumulate din dout batches) r c
        ≤ getCell (run_accumulate din dout (batches ++ [b])) r c := by
  have hrow : ∀ i, i < din → ∀ bs : List (List (List ℚ)),
      getCell (run_accumulate din dout bs) i c
        = (bs.foldl (fun row b => accRow b row) (List.replicate dout 0)).getD c 0 := by
    intro i hi bs
    rw [getCell, run_accumulate_closed]
    rw [List.getD_eq_getElem (List.replicate din _) [] (by simpa using hi)]
    rw [List.getElem_replicate]
  refine ⟨?_, ?_, ?_⟩
  · rw [hrow r hr batches, hrow r' hr' batches]
  · rw [hrow r hr batches]
    exact foldl_accRow_nonneg batches _ (fun c' => by rw [getD_replicate_zero]) c
  · intro b
    rw [hrow r hr batches, hrow r hr (batches ++ [b]), List.foldl_append,
      List.foldl_cons, List.foldl_nil]
    have hlen : c < (batches.foldl (fun row b => accRow b row)
        (List.replicate dout 0)).length := by
      rw [foldl_accRow_length, List.length_replicate]
      exact hc
    rw [accRow_getD b _ hlen]
    exact le_add_of_nonneg_right (colCounts_nonneg b c)

/-- C10 witness: in a 2 × 2 counter, rows 0 and 1 of column 0 agree at
initialisation, the entry is non-negative, and accumulating one batch does
not decrease it. -/
theorem running_activations_invariant_witness :
    getCell (run_accumulate 2 2 []) 0 0 = getCell (run_accumulate 2 2 []) 1 0
    ∧ 0 ≤ getCell (run_accumulate 2 2 []) 0 0
    ∧ getCell (run_accumulate 2 2 []) 0 0
        ≤ getCell (run_accumulate 2 2 [[[1, 1]]]) 0 0 := by
  have h := running_activations_invariant 2 2 [] 0 1 0 (by decide) (by decide) (by decide)
  exact ⟨h.1, h.2.1, h.2.2 [[1, 1]]⟩
